import Mathlib

/-!
Shallow embedding of the libsip URI / NamedHeader core.

Byte slices are modelled as `List Char` (all grammar-relevant bytes are
ASCII).  A parser of result type A is a function
`List Char → Option (List Char × A)`: `some (rest, a)` is nom's
`Ok((rest, a))`, `none` is any nom error.  nom's `char(x)` combinator
is embedded as a head test `if c = x`.  The functions of
`src/headers/named.rs` are embedded under their source names; the parts
of the crate that the claims need but whose source is absent
(`parse_uri`, the `Uri` model, `parse_quoted_string`, `slice_to_string`)
are modelled from the specification and marked as such.
-/

/-- nom's `is_alphabetic`: ASCII letter byte. -/
def is_alphabetic (c : Char) : Bool :=
  (65 ≤ c.toNat && c.toNat ≤ 90) || (97 ≤ c.toNat && c.toNat ≤ 122)

/-- nom's `is_digit`: ASCII digit byte. -/
def is_digit (c : Char) : Bool :=
  48 ≤ c.toNat && c.toNat ≤ 57

/-- nom's `is_alphanumeric`: letter or digit. -/
def is_alphanumeric (c : Char) : Bool :=
  is_alphabetic c || is_digit c

/-- nom's `is_space`: space or tab. -/
def is_space (c : Char) : Bool :=
  c == ' ' || c == '\t'

/-- `is_domain_char`: the character class of a domain label
(alphanumeric, dot, dash), from the spec's host grammar. -/
def is_domain_char (c : Char) : Bool :=
  is_alphanumeric c || c == '.' || c == '-'

/-- `parse_named_field_param` from `src/headers/named.rs`:
`char(';')`, then `take_while(is_alphabetic)` as the key, `char('=')`,
then `take_while(is_alphanumeric)` as the value.  `slice_to_string` is
the identity on these ASCII slices. -/
def parse_named_field_param (input : List Char) :
    Option (List Char × (List Char × List Char)) :=
  match input with
  | c :: i1 =>
    if c = ';' then
      let key := i1.takeWhile is_alphabetic
      match i1.dropWhile is_alphabetic with
      | c2 :: i2 =>
        if c2 = '=' then
          some (i2.dropWhile is_alphanumeric, (key, i2.takeWhile is_alphanumeric))
        else none
      | [] => none
    else none
  | [] => none

/-- `HashMap::insert` on the parameter collection, modelled on an
association list: the entry for the key is replaced, content-wise
last-wins.  (Iteration order of the source `HashMap` is arbitrary; the
claims only depend on single-entry collections or on content.) -/
def insertParamKV (m : List (List Char × List Char)) (k v : List Char) :
    List (List Char × List Char) :=
  m.filter (fun e => decide (e.1 ≠ k)) ++ [(k, v)]

/-- The `while let Ok(..)` loop of `parse_named_field_params`,
with explicit fuel (the loop strictly consumes input, so fuel
`input.length + 1` never runs out; see `params_loop_stops`). -/
def params_loop : Nat → List (List Char × List Char) → List Char →
    List Char × List (List Char × List Char)
  | 0, acc, input => (input, acc)
  | fuel + 1, acc, input =>
    match parse_named_field_param input with
    | none => (input, acc)
    | some (rest, kv) => params_loop fuel (insertParamKV acc kv.1 kv.2) rest

/-- `parse_named_field_params` from `src/headers/named.rs`: insert each
successfully parsed pair, stop at the first failed attempt, always
return `Ok`. -/
def parse_named_field_params (input : List Char) :
    Option (List Char × List (List Char × List Char)) :=
  some (params_loop (input.length + 1) [] input)

/-- Modelled from the spec: `parse_quoted_string` (absent from the
given sources, it lives in `crate::parse`): text enclosed in double
quotes, embedded spaces allowed. -/
def parse_quoted_string (input : List Char) :
    Option (List Char × List Char) :=
  match input with
  | c :: i1 =>
    if c = '"' then
      let s := i1.takeWhile (fun x => decide (x ≠ '"'))
      match i1.dropWhile (fun x => decide (x ≠ '"')) with
      | c2 :: i2 => if c2 = '"' then some (i2, s) else none
      | [] => none
    else none
  | [] => none

/-- `parse_unquoted_string` from `src/headers/named.rs`:
`take_while(is_alphabetic)` then a mandatory `char(' ')`; the space is
consumed but not part of the returned label. -/
def parse_unquoted_string (input : List Char) :
    Option (List Char × List Char) :=
  let s := input.takeWhile is_alphabetic
  match input.dropWhile is_alphabetic with
  | c :: i2 => if c = ' ' then some (i2, s) else none
  | [] => none

/-- `parse_name` from `src/headers/named.rs`: `alt` of the quoted and
unquoted forms (nom's `alt` backtracks to the original input). -/
def parse_name (input : List Char) : Option (List Char × List Char) :=
  (parse_quoted_string input).orElse (fun _ => parse_unquoted_string input)

/-! ## The Uri model, modelled from the spec (its source is absent) -/

/-- Modelled from the spec: the scheme enumeration (`sip` / `sips`). -/
inductive Scheme
  | sip
  | sips
deriving DecidableEq

/-- Modelled from the spec: the transport enumeration. -/
inductive Transp
  | udp
  | tcp
  | tls
  | sctp
deriving DecidableEq

/-- Modelled from the spec: a URI parameter, either the recognized
transport parameter or an opaque key/value pair. -/
inductive Param
  | transport (t : Transp)
  | other (key value : List Char)
deriving DecidableEq

/-- Modelled from the spec: the host, a tagged variant of a domain
label or a dotted-quad literal, each with an optional port. -/
inductive Domain
  | name (label : List Char) (port : Option Nat)
  | ipAddr (a b c d : Nat) (port : Option Nat)
deriving DecidableEq

/-- Modelled from the spec: `UriAuth`, a username and optional
password. -/
structure UriAuth where
  username : List Char
  password : Option (List Char)
deriving DecidableEq

/-- Modelled from the spec: the `Uri` value. -/
structure Uri where
  scheme : Scheme
  host : Domain
  auth : Option UriAuth
  parameters : List Param
deriving DecidableEq

/-- `NamedHeader` from `src/headers/named.rs`; the `HashMap` parameter
collection is modelled as an association list. -/
structure NamedHeader where
  display_name : Option (List Char)
  uri : Uri
  params : List (List Char × List Char)
deriving DecidableEq

/-! ## Rendering (Display impls; the Uri side is modelled from
the spec's serialization grammar, the NamedHeader side is from
`src/headers/named.rs`) -/

/-- Decimal digit characters of a natural number (most significant
first); `0` renders as `"0"`, matching Rust integer Display. -/
def renderNat (n : Nat) : List Char :=
  if n = 0 then [Nat.digitChar 0]
  else ((Nat.digits 10 n).map Nat.digitChar).reverse

/-- Numeric value of a run of decimal digit characters
(`str::parse` on the matched slice). -/
def digitsToNat (l : List Char) : Nat :=
  l.foldl (fun a c => 10 * a + (c.toNat - 48)) 0

/-- Modelled from the spec: scheme tag text. -/
def renderScheme : Scheme → List Char
  | .sip => ['s', 'i', 'p', ':']
  | .sips => ['s', 'i', 'p', 's', ':']

/-- Modelled from the spec: canonical transport parameter value. -/
def renderTransp : Transp → List Char
  | .udp => ['U', 'D', 'P']
  | .tcp => ['T', 'C', 'P']
  | .tls => ['T', 'L', 'S']
  | .sctp => ['S', 'C', 'T', 'P']

/-- Modelled from the spec: one rendered parameter, `;key=value`. -/
def renderParam : Param → List Char
  | .transport t =>
    ';' :: (['t', 'r', 'a', 'n', 's', 'p', 'o', 'r', 't', '='] ++ renderTransp t)
  | .other k v => ';' :: (k ++ '=' :: v)

/-- Rendered parameter list, in collection iteration order. -/
def renderParams : List Param → List Char
  | [] => []
  | p :: rest => renderParam p ++ renderParams rest

/-- Modelled from the spec: optional `:port` suffix. -/
def renderPort : Option Nat → List Char
  | none => []
  | some n => ':' :: renderNat n

/-- Modelled from the spec: rendered host. -/
def renderDomain : Domain → List Char
  | .name l p => l ++ renderPort p
  | .ipAddr a b c d p =>
    renderNat a ++ '.' :: renderNat b ++ '.' :: renderNat c ++ '.' :: renderNat d
      ++ renderPort p

/-- Modelled from the spec: rendered credentials,
`user[:password]@`. -/
def renderAuth : Option UriAuth → List Char
  | none => []
  | some a =>
    a.username ++ (match a.password with
      | none => []
      | some pw => ':' :: pw) ++ ['@']

/-- Modelled from the spec: the Uri Display impl,
`scheme:[user[:password]@]host[:port][;key=value]*`. -/
def renderUri (u : Uri) : List Char :=
  renderScheme u.scheme ++ renderAuth u.auth ++ renderDomain u.host
    ++ renderParams u.parameters

/-! ## Parsing, Uri side (modelled from the spec's grammar) -/

/-- nom's `tag`: match a literal token, return the rest. -/
def parse_tag (tag input : List Char) : Option (List Char) :=
  if tag.isPrefixOf input then some (input.drop tag.length) else none

/-- Modelled from the spec: the literal scheme tag with its colon,
`sips` attempted before its prefix `sip`. -/
def parse_scheme (input : List Char) : Option (List Char × Scheme) :=
  match parse_tag (("sips:").data) input with
  | some r => some (r, Scheme.sips)
  | none =>
    match parse_tag (("sip:").data) input with
    | some r => some (r, Scheme.sip)
    | none => none

/-- Modelled from the spec: the credentials prefix, an alphanumeric
username, optionally `:password`, terminated by a mandatory `@`. -/
def parse_uri_auth (input : List Char) : Option (List Char × UriAuth) :=
  let user := input.takeWhile is_alphanumeric
  match input.dropWhile is_alphanumeric with
  | c :: r =>
    if c = '@' then some (r, UriAuth.mk user none)
    else if c = ':' then
      let pw := r.takeWhile is_alphanumeric
      match r.dropWhile is_alphanumeric with
      | c2 :: r2 => if c2 = '@' then some (r2, UriAuth.mk user (some pw)) else none
      | [] => none
    else none
  | [] => none

/-- Modelled from the spec: `opt` of the credentials prefix — on
failure the cursor does not advance. -/
def opt_uri_auth (input : List Char) : List Char × Option UriAuth :=
  match parse_uri_auth input with
  | some (r, a) => (r, some a)
  | none => (input, none)

/-- Modelled from the spec: one decimal octet of a dotted-quad
(`str::parse::<u8>` on a nonempty digit run). -/
def parse_octet (input : List Char) : Option (List Char × Nat) :=
  let ds := input.takeWhile is_digit
  if ds.isEmpty then none
  else if digitsToNat ds < 256 then
    some (input.dropWhile is_digit, digitsToNat ds)
  else none

/-- Modelled from the spec: the optional `:port` suffix, a decimal
`u16`; on failure the cursor does not advance. -/
def opt_port (input : List Char) : List Char × Option Nat :=
  match input with
  | c :: r =>
    if c = ':' then
      let ds := r.takeWhile is_digit
      if ds.isEmpty then (input, none)
      else if digitsToNat ds < 65536 then
        (r.dropWhile is_digit, some (digitsToNat ds))
      else (input, none)
    else (input, none)
  | [] => (input, none)

/-- Modelled from the spec: the numeric dotted-quad host, four decimal
octets separated by dots, then an optional port. -/
def parse_ipv4_host (input : List Char) : Option (List Char × Domain) :=
  match parse_octet input with
  | none => none
  | some (r1, a) =>
    match r1 with
    | c1 :: r2 =>
      if c1 = '.' then
        match parse_octet r2 with
        | none => none
        | some (r3, b) =>
          match r3 with
          | c2 :: r4 =>
            if c2 = '.' then
              match parse_octet r4 with
              | none => none
              | some (r5, c) =>
                match r5 with
                | c3 :: r6 =>
                  if c3 = '.' then
                    match parse_octet r6 with
                    | none => none
                    | some (r7, d) =>
                      let pr := opt_port r7
                      some (pr.1, Domain.ipAddr a b c d pr.2)
                  else none
                | [] => none
            else none
          | [] => none
      else none
    | [] => none

/-- Modelled from the spec: the domain-label host, a nonempty run of
domain characters, then an optional port. -/
def parse_domain_host (input : List Char) : Option (List Char × Domain) :=
  let l := input.takeWhile is_domain_char
  if l.isEmpty then none
  else
    let pr := opt_port (input.dropWhile is_domain_char)
    some (pr.1, Domain.name l pr.2)

/-- Modelled from the spec: host alternation, the numeric dotted-quad
attempted before the domain label. -/
def parse_host (input : List Char) : Option (List Char × Domain) :=
  (parse_ipv4_host input).orElse (fun _ => parse_domain_host input)

/-- ASCII lower-casing of a parameter value, for the case-insensitive
transport match. -/
def lowerChars (l : List Char) : List Char :=
  l.map Char.toLower

/-- Modelled from the spec: classify a parsed `key=value` pair — the
recognized `transport` key with a case-insensitive transport value
becomes the typed variant, everything else stays opaque. -/
def param_from_kv (k v : List Char) : Param :=
  if k = ['t', 'r', 'a', 'n', 's', 'p', 'o', 'r', 't'] then
    if lowerChars v = ['u', 'd', 'p'] then Param.transport Transp.udp
    else if lowerChars v = ['t', 'c', 'p'] then Param.transport Transp.tcp
    else if lowerChars v = ['t', 'l', 's'] then Param.transport Transp.tls
    else if lowerChars v = ['s', 'c', 't', 'p'] then Param.transport Transp.sctp
    else Param.other k v
  else Param.other k v

/-- Modelled from the spec: one URI-level `;key=value` parameter
(alphabetic key, alphanumeric value), classified. -/
def parse_uri_param (input : List Char) : Option (List Char × Param) :=
  match parse_named_field_param input with
  | none => none
  | some (rest, kv) => some (rest, param_from_kv kv.1 kv.2)

/-- Key under which a parameter is stored. -/
def paramKey : Param → List Char
  | .transport _ => ['t', 'r', 'a', 'n', 's', 'p', 'o', 'r', 't']
  | .other k _ => k

/-- Last-wins keyed insertion into the URI parameter collection. -/
def insertParam (l : List Param) (p : Param) : List Param :=
  l.filter (fun q => decide (paramKey q ≠ paramKey p)) ++ [p]

/-- Modelled from the spec: the URI parameter loop — parse as many
parameters as possible, stop at the first failed attempt (fueled; the
fuel never runs out, as for `params_loop`). -/
def uri_params_loop : Nat → List Param → List Char → List Char × List Param
  | 0, acc, input => (input, acc)
  | fuel + 1, acc, input =>
    match parse_uri_param input with
    | none => (input, acc)
    | some (rest, p) => uri_params_loop fuel (insertParam acc p) rest

/-- Modelled from the spec: `parse_uri` — scheme tag, optional
credentials, host by alternation (fatal on failure), then the
parameter loop. -/
def parse_uri (input : List Char) : Option (List Char × Uri) :=
  match parse_scheme input with
  | none => none
  | some (i1, sch) =>
    let au := opt_uri_auth i1
    match parse_host au.1 with
    | none => none
    | some (i3, host) =>
      let pl := uri_params_loop (i3.length + 1) [] i3
      some (pl.1, Uri.mk sch host au.2 pl.2)

/-! ## The NamedHeader value parser (`src/headers/named.rs`) -/

/-- The `opt(char('<'))` step: consume a leading `<` if present. -/
def strip_langle (input : List Char) : List Char :=
  match input with
  | c :: r => if c = '<' then r else input
  | [] => input

/-- The `opt(char('>'))` step: consume a leading `>` if present. -/
def strip_rangle (input : List Char) : List Char :=
  match input with
  | c :: r => if c = '>' then r else input
  | [] => input

/-- The `opt(parse_name)` step of `parse_named_field_value`: on failure
the display name is absent and the cursor does not advance. -/
def name_step (input : List Char) : List Char × Option (List Char) :=
  match parse_name input with
  | some (r, n) => (r, some n)
  | none => (input, none)

/-- `parse_named_field_value` from `src/headers/named.rs`:
`opt(parse_name)`, `opt(take_while(is_space))`, `opt(char('<'))`,
`parse_uri` (fatal on failure), `opt(char('>'))`. -/
def parse_named_field_value (input : List Char) :
    Option (List Char × (Option (List Char) × Uri)) :=
  let st := name_step input
  let i3 := strip_langle (st.1.dropWhile is_space)
  match parse_uri i3 with
  | none => none
  | some (i4, uri) => some (strip_rangle i4, (st.2, uri))

/-- Modelled from the spec: the NamedHeader glue — the value parser
followed by the header-level parameter loop (the concrete header
parsers that compose these two are absent from the given sources). -/
def parse_named_header (input : List Char) :
    Option (List Char × NamedHeader) :=
  match parse_named_field_value input with
  | none => none
  | some (r, nv) =>
    match parse_named_field_params r with
    | none => none
    | some (r2, ps) => some (r2, NamedHeader.mk nv.1 nv.2 ps)

/-! ## NamedHeader rendering (`impl fmt::Display for NamedHeader`) -/

/-- Rendered `;key=value` pairs of the header parameter collection, in
iteration order. -/
def renderKVs : List (List Char × List Char) → List Char
  | [] => []
  | (k, v) :: rest => ';' :: (k ++ '=' :: v) ++ renderKVs rest

/-- The `fmt::Display` impl of `NamedHeader` from
`src/headers/named.rs`: conditional quoting of the display name, the
URI in angle brackets whenever a name is present, then the header
parameters. -/
def NamedHeader.render (h : NamedHeader) : List Char :=
  (match h.display_name with
   | some n =>
     if n.contains ' ' then
       '"' :: n ++ '"' :: ' ' :: '<' :: renderUri h.uri ++ ['>']
     else if n.isEmpty then
       '"' :: '"' :: ' ' :: '<' :: renderUri h.uri ++ ['>']
     else
       n ++ ' ' :: '<' :: renderUri h.uri ++ ['>']
   | none => renderUri h.uri) ++ renderKVs h.params

/-! ## Well-formed values: components drawn from the grammar's
character classes, canonical parameter pairs.  These bound the amended
round-trip property. -/

/-- Port bound of the decimal `u16` port grammar. -/
def wf_port : Option Nat → Bool
  | none => true
  | some n => decide (n < 65536)

/-- A well-formed host: a domain label is nonempty, over the domain
character class, and does not start with a digit (so the numeric
alternative cannot consume it); octets of a dotted quad fit in `u8`. -/
def wf_domain : Domain → Bool
  | .name l p =>
    !l.isEmpty && l.all is_domain_char && !is_digit (l.headD 'x') && wf_port p
  | .ipAddr a b c d p =>
    decide (a < 256) && decide (b < 256) && decide (c < 256)
      && decide (d < 256) && wf_port p

/-- Well-formed credentials: alphanumeric username and password. -/
def wf_auth : Option UriAuth → Bool
  | none => true
  | some a =>
    a.username.all is_alphanumeric
      && (match a.password with
          | none => true
          | some pw => pw.all is_alphanumeric)

/-- A well-formed URI parameter: alphabetic key, alphanumeric value,
and an opaque pair must not be one the parser would re-classify as a
typed transport parameter. -/
def wf_param : Param → Bool
  | .transport _ => true
  | .other k v =>
    k.all is_alphabetic && v.all is_alphanumeric
      && decide (param_from_kv k v = Param.other k v)

/-- A well-formed URI: all components well-formed. -/
def wf_uri (u : Uri) : Bool :=
  wf_domain u.host && wf_auth u.auth && u.parameters.all wf_param

/-- A well-formed header-level parameter pair (same conditions as an
opaque URI parameter). -/
def wf_kv (kv : List Char × List Char) : Bool :=
  kv.1.all is_alphabetic && kv.2.all is_alphanumeric
    && decide (param_from_kv kv.1 kv.2 = Param.other kv.1 kv.2)

/-- A well-formed display name: if it contains a space it is rendered
quoted, so it must not contain a double quote; the empty name is
rendered quoted; any other name is rendered unquoted, so it must be a
nonempty alphabetic token. -/
def wf_name : Option (List Char) → Bool
  | none => true
  | some n =>
    if n.contains ' ' then !n.contains '"'
    else if n.isEmpty then true
    else n.all is_alphabetic

/-- A well-formed NamedHeader: well-formed components and at most one
parameter in total (the ≤ 1 bound of the round-trip claim). -/
def wf_named_header (h : NamedHeader) : Bool :=
  wf_name h.display_name && wf_uri h.uri && h.params.all wf_kv
    && decide (h.uri.parameters.length + h.params.length ≤ 1)

/-! ## Generic scanning lemmas -/

theorem takeWhile_append_of_all {p : Char → Bool} {s : List Char} (t : List Char)
    (h : ∀ c ∈ s, p c = true) : (s ++ t).takeWhile p = s ++ t.takeWhile p := by
  induction s with
  | nil => simp
  | cons a s ih =>
    have ha : p a = true := h a (List.mem_cons_self a s)
    simp only [List.cons_append, List.takeWhile_cons, ha, if_true]
    rw [ih (fun c hc => h c (List.mem_cons_of_mem a hc))]

theorem dropWhile_append_of_all {p : Char → Bool} {s : List Char} (t : List Char)
    (h : ∀ c ∈ s, p c = true) : (s ++ t).dropWhile p = t.dropWhile p := by
  induction s with
  | nil => simp
  | cons a s ih =>
    have ha : p a = true := h a (List.mem_cons_self a s)
    simp only [List.cons_append, List.dropWhile_cons, ha, if_true]
    exact ih (fun c hc => h c (List.mem_cons_of_mem a hc))

theorem takeWhile_nil_of_head {p : Char → Bool} {t : List Char}
    (h : ∀ c, t.head? = some c → p c = false) : t.takeWhile p = [] := by
  cases t with
  | nil => rfl
  | cons a t => simp [List.takeWhile_cons, h a rfl]

theorem dropWhile_self_of_head {p : Char → Bool} {t : List Char}
    (h : ∀ c, t.head? = some c → p c = false) : t.dropWhile p = t := by
  cases t with
  | nil => rfl
  | cons a t => simp [List.dropWhile_cons, h a rfl]

theorem takeWhile_exact {p : Char → Bool} {s t : List Char}
    (hs : ∀ c ∈ s, p c = true) (ht : ∀ c, t.head? = some c → p c = false) :
    (s ++ t).takeWhile p = s := by
  rw [takeWhile_append_of_all t hs, takeWhile_nil_of_head ht, List.append_nil]

theorem dropWhile_exact {p : Char → Bool} {s t : List Char}
    (hs : ∀ c ∈ s, p c = true) (ht : ∀ c, t.head? = some c → p c = false) :
    (s ++ t).dropWhile p = t := by
  rw [dropWhile_append_of_all t hs, dropWhile_self_of_head ht]

theorem isPrefixOf_append_self (l t : List Char) :
    l.isPrefixOf (l ++ t) = true := by
  induction l with
  | nil => simp [List.isPrefixOf]
  | cons a l ih => simp [List.isPrefixOf, ih]

/-! ## Single-parameter parser: strict input consumption -/

theorem parse_named_field_param_lt {input rest : List Char}
    {kv : List Char × List Char}
    (h : parse_named_field_param input = some (rest, kv)) :
    rest.length < input.length := by
  cases input with
  | nil => simp [parse_named_field_param] at h
  | cons c i1 =>
    by_cases hc : c = ';'
    · subst hc
      cases hd : i1.dropWhile is_alphabetic with
      | nil => simp [parse_named_field_param, hd] at h
      | cons c2 i2 =>
        by_cases hc2 : c2 = '='
        · subst hc2
          simp only [parse_named_field_param, hd, if_true] at h
          obtain ⟨hrest, -⟩ := Prod.mk.injEq .. ▸ Option.some.inj h
          have h1 : (i2.dropWhile is_alphanumeric).length ≤ i2.length :=
            (List.dropWhile_suffix _).sublist.length_le
          have h2 : (i1.dropWhile is_alphabetic).length ≤ i1.length :=
            (List.dropWhile_suffix _).sublist.length_le
          rw [hd] at h2
          simp only [List.length_cons] at h2
          rw [← hrest]
          simp only [List.length_cons]
          omega
        · simp [parse_named_field_param, hd, hc2] at h
    · simp [parse_named_field_param, hc] at h

/-! ## Parameter-loop lemmas -/

theorem params_loop_stop {fuel : Nat} {acc} {input : List Char}
    (h : parse_named_field_param input = none) :
    params_loop (fuel + 1) acc input = (input, acc) := by
  simp [params_loop, h]

theorem params_loop_step {fuel : Nat} {acc} {input rest : List Char}
    {kv : List Char × List Char}
    (h : parse_named_field_param input = some (rest, kv)) :
    params_loop (fuel + 1) acc input
      = params_loop fuel (insertParamKV acc kv.1 kv.2) rest := by
  simp [params_loop, h]

theorem params_loop_stops : ∀ (fuel : Nat) (input : List Char) acc,
    input.length < fuel →
    parse_named_field_param ((params_loop fuel acc input).1) = none := by
  intro fuel
  induction fuel with
  | zero => intro input acc h; omega
  | succ f ih =>
    intro input acc h
    cases hp : parse_named_field_param input with
    | none => rw [params_loop_stop hp]; exact hp
    | some v =>
      obtain ⟨rest, kv⟩ := v
      have hlt := parse_named_field_param_lt hp
      rw [params_loop_step hp]
      exact ih rest _ (by omega)

theorem nodup_keys_insertParamKV (m : List (List Char × List Char))
    (k v : List Char) (h : (m.map Prod.fst).Nodup) :
    ((insertParamKV m k v).map Prod.fst).Nodup := by
  unfold insertParamKV
  rw [List.map_append, List.nodup_append]
  refine ⟨?_, by simp, ?_⟩
  · exact h.sublist ((List.filter_sublist m).map Prod.fst)
  · intro x hx hxk
    simp only [List.map_cons, List.map_nil, List.mem_singleton] at hxk
    subst hxk
    obtain ⟨e, he, hef⟩ := List.mem_map.1 hx
    rw [List.mem_filter] at he
    exact absurd hef (by simpa using he.2)

theorem params_loop_nodup : ∀ (fuel : Nat) (input : List Char) acc,
    (acc.map Prod.fst).Nodup →
    (((params_loop fuel acc input).2).map Prod.fst).Nodup := by
  intro fuel
  induction fuel with
  | zero => intro input acc h; exact h
  | succ f ih =>
    intro input acc h
    cases hp : parse_named_field_param input with
    | none => rw [params_loop_stop hp]; exact h
    | some v =>
      obtain ⟨rest, kv⟩ := v
      rw [params_loop_step hp]
      exact ih rest _ (nodup_keys_insertParamKV acc kv.1 kv.2 h)

/-! ## Claims C2, C6, C8, C9 -/

/-- C2: `parse_named_field_params` never returns an error: for every
input it returns `Ok` with an accumulated collection and the remaining
input, and it stops exactly at the first input position where the
single-parameter parser fails, leaving that fragment unconsumed. -/
theorem claim_C2 (input : List Char) :
    ∃ rest m, parse_named_field_params input = some (rest, m)
      ∧ parse_named_field_param rest = none := by
  refine ⟨(params_loop (input.length + 1) [] input).1,
    (params_loop (input.length + 1) [] input).2, by
      simp [parse_named_field_params], ?_⟩
  exact params_loop_stops _ _ _ (by omega)

/-- C6: every collection produced by `parse_named_field_params` has
pairwise distinct keys, and on a duplicate key in the input the value
of the later occurrence is the one retained (`;a=x;a=y` yields the
single entry `a=y`). -/
theorem claim_C6 :
    (∀ (input rest : List Char) m,
      parse_named_field_params input = some (rest, m) →
      (m.map Prod.fst).Nodup)
    ∧ parse_named_field_params ((";a=x;a=y").data)
        = some ([], [(['a'], ['y'])]) := by
  constructor
  · intro input rest m h
    have h2 := Option.some.inj h
    have hm : m = (params_loop (input.length + 1) [] input).2 := by
      rw [Prod.ext_iff] at h2
      exact h2.2.symm
    rw [hm]
    exact params_loop_nodup _ _ _ (by simp)
  · rfl

/-- C6 witness: the theorem applied to the concrete input `;k=v`. -/
theorem claim_C6_wit :
    parse_named_field_params ((";k=v").data) = some ([], [(['k'], ['v'])])
    ∧ (([(['k'], ['v'])]).map Prod.fst).Nodup :=
  ⟨rfl, claim_C6.1 ((";k=v").data) [] [(['k'], ['v'])] rfl⟩

/-- C8: each successful single-parameter parse consumes at least one
byte, so the remaining input strictly decreases on every iteration of
the parameter loop. -/
theorem claim_C8 (input rest : List Char) (kv : List Char × List Char)
    (h : parse_named_field_param input = some (rest, kv)) :
    rest.length < input.length :=
  parse_named_field_param_lt h

/-- C8 witness: the theorem applied to the concrete input `;a=b`. -/
theorem claim_C8_wit :
    parse_named_field_param ((";a=b").data) = some ([], (['a'], ['b']))
    ∧ ([] : List Char).length < ((";a=b").data).length :=
  ⟨rfl, claim_C8 ((";a=b").data) [] (['a'], ['b']) rfl⟩

/-- C9: `parse_named_field_param` accepts empty keys and empty values:
`;=` parses to the pair of empty strings, `;=value` and `;key=` also
succeed, and the empty-keyed pair is stored in the collection. -/
theorem claim_C9 :
    parse_named_field_param ((";=").data) = some ([], ([], []))
    ∧ parse_named_field_param ((";=value").data)
        = some ([], ([], ("value").data))
    ∧ parse_named_field_param ((";key=").data)
        = some ([], (("key").data, []))
    ∧ parse_named_field_params ((";=").data) = some ([], [([], [])]) :=
  ⟨rfl, rfl, rfl, rfl⟩

/-- C5: host alternation tie-break — `sip:10.1.10.1` parses to the
numeric dotted-quad host (the numeric alternative is attempted first),
while `sip:hostname` parses to the domain-label host. -/
theorem claim_C5 :
    parse_uri (("sip:10.1.10.1").data)
      = some ([], Uri.mk Scheme.sip (Domain.ipAddr 10 1 10 1 none) none [])
    ∧ parse_uri (("sip:hostname").data)
      = some ([], Uri.mk Scheme.sip (Domain.name (("hostname").data) none) none []) :=
  ⟨rfl, rfl⟩

/-! ## Claims C7, C10, C4, C1 -/

theorem parse_unquoted_string_eq (input : List Char) :
    parse_unquoted_string input =
      if (input.dropWhile is_alphabetic).head? = some ' ' then
        some ((input.dropWhile is_alphabetic).tail,
          input.takeWhile is_alphabetic)
      else none := by
  cases hd : input.dropWhile is_alphabetic with
  | nil => simp [parse_unquoted_string, hd]
  | cons c t =>
    by_cases hc : c = ' '
    · subst hc; simp [parse_unquoted_string, hd]
    · simp [parse_unquoted_string, hd, hc]

/-- C7: the unquoted display-name alternative succeeds exactly when the
alphabetic run is immediately followed by a space; the space is
consumed as terminator and is not part of the returned label, and with
no trailing space the alternative fails. -/
theorem claim_C7 (input : List Char) :
    ((parse_unquoted_string input).isSome = true ↔
      (input.dropWhile is_alphabetic).head? = some ' ')
    ∧ (∀ r s, parse_unquoted_string input = some (r, s) →
        s = input.takeWhile is_alphabetic ∧ input = s ++ ' ' :: r
          ∧ s.all is_alphabetic = true ∧ ' ' ∉ s) := by
  have hsplit := List.takeWhile_append_dropWhile is_alphabetic input
  constructor
  · cases hd : input.dropWhile is_alphabetic with
    | nil => simp [parse_unquoted_string_eq, hd]
    | cons c t =>
      by_cases hc : c = ' '
      · subst hc; simp [parse_unquoted_string_eq, hd]
      · simp [parse_unquoted_string_eq, hd, hc]
  · intro r s hrs
    rw [parse_unquoted_string_eq] at hrs
    by_cases hcond : (input.dropWhile is_alphabetic).head? = some ' '
    · rw [if_pos hcond] at hrs
      have hpair := Option.some.inj hrs
      have ht : (input.dropWhile is_alphabetic).tail = r :=
        congrArg Prod.fst hpair
      have hs : input.takeWhile is_alphabetic = s := congrArg Prod.snd hpair
      have hdrop : input.dropWhile is_alphabetic = ' ' :: r := by
        cases hd : input.dropWhile is_alphabetic with
        | nil => rw [hd] at hcond; exact absurd hcond (by simp)
        | cons c t =>
          rw [hd] at hcond ht
          simp only [List.head?_cons, Option.some.injEq] at hcond
          simp only [List.tail_cons] at ht
          rw [hcond, ht]
      refine ⟨hs.symm, ?_, ?_, ?_⟩
      · calc input
            = input.takeWhile is_alphabetic ++ input.dropWhile is_alphabetic :=
              hsplit.symm
          _ = s ++ ' ' :: r := by rw [hdrop, hs]
      · rw [← hs, List.all_eq_true]
        exact fun x hx => List.mem_takeWhile_imp hx
      · intro hmem
        rw [← hs] at hmem
        have hspace : is_alphabetic ' ' = true := List.mem_takeWhile_imp hmem
        exact absurd hspace (by decide)
    · rw [if_neg hcond] at hrs
      exact absurd hrs (by simp)

/-- C7 witness: the theorem applied to the concrete input
`bob cat`. -/
theorem claim_C7_wit :
    parse_unquoted_string (("bob cat").data)
        = some ((("cat").data), ("bob").data)
    ∧ (("bob").data = (("bob cat").data).takeWhile is_alphabetic
        ∧ ("bob cat").data = ("bob").data ++ ' ' :: ("cat").data
        ∧ (("bob").data).all is_alphabetic = true ∧ ' ' ∉ ("bob").data) :=
  ⟨rfl, (claim_C7 (("bob cat").data)).2 (("cat").data) (("bob").data) rfl⟩

/-- C10: an input beginning with a space followed by a parsable URI
yields display name `Some("")`, not `None`: the unquoted alternative
matches the empty alphabetic run terminated by that leading space. -/
theorem claim_C10 (rest r : List Char) (u : Uri)
    (h : parse_uri (strip_langle (rest.dropWhile is_space)) = some (r, u)) :
    parse_named_field_value (' ' :: rest)
      = some (strip_rangle r, (some [], u)) := by
  have hn : name_step (' ' :: rest) = (rest, some []) := rfl
  simp only [parse_named_field_value, hn, h]

/-- C10 witness: the theorem applied to the concrete input
`' ' :: sip:hostname`. -/
theorem claim_C10_wit :
    parse_uri (strip_langle ((("sip:hostname").data).dropWhile is_space))
        = some ([], Uri.mk Scheme.sip (Domain.name (("hostname").data) none) none [])
    ∧ parse_named_field_value (' ' :: ("sip:hostname").data)
        = some (strip_rangle [],
            (some [], Uri.mk Scheme.sip (Domain.name (("hostname").data) none) none [])) :=
  ⟨rfl, claim_C10 (("sip:hostname").data) []
    (Uri.mk Scheme.sip (Domain.name (("hostname").data) none) none []) rfl⟩

/-- C4: `parse_named_field_value` sequences an optional display name,
optional spaces, an optional `<`, the mandatory URI and an optional
`>`: a URI failure is fatal (the `Option.map` of a failed parse is
`none`), and when both display-name alternatives fail the name is
absent and the URI is parsed from the original cursor position. -/
theorem claim_C4 (input : List Char) :
    (parse_name input = none →
      parse_named_field_value input =
        (parse_uri (strip_langle (input.dropWhile is_space))).map
          (fun ru => (strip_rangle ru.1, (none, ru.2))))
    ∧ (∀ r n, parse_name input = some (r, n) →
      parse_named_field_value input =
        (parse_uri (strip_langle (r.dropWhile is_space))).map
          (fun ru => (strip_rangle ru.1, (some n, ru.2)))) := by
  constructor
  · intro h
    have hn : name_step input = (input, none) := by simp [name_step, h]
    simp only [parse_named_field_value, hn]
    cases hu : parse_uri (strip_langle (input.dropWhile is_space)) with
    | none => simp
    | some ru => simp
  · intro r n h
    have hn : name_step input = (r, some n) := by simp [name_step, h]
    simp only [parse_named_field_value, hn]
    cases hu : parse_uri (strip_langle (r.dropWhile is_space)) with
    | none => simp
    | some ru => simp

/-- C4 witness: the theorem applied to the inputs `sip:a` (no display
name, URI from the original position) and `bob fred` (display name
consumed, then a fatal URI failure). -/
theorem claim_C4_wit :
    (parse_name (("sip:a").data) = none
      ∧ parse_named_field_value (("sip:a").data)
          = (parse_uri (strip_langle ((("sip:a").data).dropWhile is_space))).map
              (fun ru => (strip_rangle ru.1, (none, ru.2))))
    ∧ (parse_name (("bob fred").data) = some ((("fred").data), ("bob").data)
      ∧ parse_named_field_value (("bob fred").data)
          = (parse_uri (strip_langle ((("fred").data).dropWhile is_space))).map
              (fun ru => (strip_rangle ru.1, (some (("bob").data), ru.2)))) :=
  ⟨⟨rfl, (claim_C4 (("sip:a").data)).1 rfl⟩,
   ⟨rfl, (claim_C4 (("bob fred").data)).2 (("fred").data) (("bob").data) rfl⟩⟩

/-- C1: the NamedHeader Display impl follows the conditional quoting
rule exactly — no name: URI alone; name with a space: quoted; empty
name: a pair of quotes; other names: unquoted — with the URI in angle
brackets whenever a name is present and the parameters appended as
`;key=value` pairs. -/
theorem claim_C1 (h : NamedHeader) :
    (h.display_name = none →
      h.render = renderUri h.uri ++ renderKVs h.params)
    ∧ (∀ n, h.display_name = some n → n.contains ' ' = true →
        h.render = '"' :: n ++ '"' :: ' ' :: '<' :: renderUri h.uri
          ++ '>' :: renderKVs h.params)
    ∧ (∀ n, h.display_name = some n → n.contains ' ' = false →
        n.isEmpty = true →
        h.render = '"' :: '"' :: ' ' :: '<' :: renderUri h.uri
          ++ '>' :: renderKVs h.params)
    ∧ (∀ n, h.display_name = some n → n.contains ' ' = false →
        n.isEmpty = false →
        h.render = n ++ ' ' :: '<' :: renderUri h.uri
          ++ '>' :: renderKVs h.params) := by
  refine ⟨?_, ?_, ?_, ?_⟩
  · intro h0
    simp only [NamedHeader.render, h0]
  · intro n hn hc
    simp only [NamedHeader.render, hn, hc]
    simp [List.append_assoc]
  · intro n hn hc he
    simp only [NamedHeader.render, hn, hc, he]
    simp [List.append_assoc]
  · intro n hn hc he
    simp only [NamedHeader.render, hn, hc, he]
    simp [List.append_assoc]

/-- C1 witness: the theorem applied to four concrete headers, one per
quoting case. -/
theorem claim_C1_wit :
    (NamedHeader.mk none
        (Uri.mk Scheme.sip (Domain.name (("h").data) none) none [])
        [(("t").data, ("x").data)]).render
      = renderUri (Uri.mk Scheme.sip (Domain.name (("h").data) none) none [])
          ++ renderKVs [(("t").data, ("x").data)]
    ∧ (NamedHeader.mk (some (("A. Bell").data))
        (Uri.mk Scheme.sip (Domain.name (("h").data) none) none []) []).render
      = '"' :: ("A. Bell").data ++ '"' :: ' ' :: '<'
          :: renderUri (Uri.mk Scheme.sip (Domain.name (("h").data) none) none [])
          ++ '>' :: renderKVs []
    ∧ (NamedHeader.mk (some [])
        (Uri.mk Scheme.sip (Domain.name (("h").data) none) none []) []).render
      = '"' :: '"' :: ' ' :: '<'
          :: renderUri (Uri.mk Scheme.sip (Domain.name (("h").data) none) none [])
          ++ '>' :: renderKVs []
    ∧ (NamedHeader.mk (some (("bob").data))
        (Uri.mk Scheme.sip (Domain.name (("h").data) none) none []) []).render
      = ("bob").data ++ ' ' :: '<'
          :: renderUri (Uri.mk Scheme.sip (Domain.name (("h").data) none) none [])
          ++ '>' :: renderKVs [] :=
  ⟨(claim_C1 _).1 rfl,
   (claim_C1 _).2.1 (("A. Bell").data) rfl (by decide),
   (claim_C1 _).2.2.1 [] rfl (by decide) (by decide),
   (claim_C1 _).2.2.2 (("bob").data) rfl (by decide) (by decide)⟩

/-! ## Decimal rendering round-trip lemmas -/

theorem digitChar_toNat {d : Nat} (h : d < 10) :
    (Nat.digitChar d).toNat = 48 + d := by
  interval_cases d <;> decide

theorem is_digit_digitChar {d : Nat} (h : d < 10) :
    is_digit (Nat.digitChar d) = true := by
  interval_cases d <;> decide

theorem renderNat_all_digit (n : Nat) :
    ∀ c ∈ renderNat n, is_digit c = true := by
  intro c hc
  unfold renderNat at hc
  by_cases h0 : n = 0
  · rw [if_pos h0] at hc
    simp only [List.mem_singleton] at hc
    subst hc; decide
  · rw [if_neg h0, List.mem_reverse, List.mem_map] at hc
    obtain ⟨d, hd, rfl⟩ := hc
    exact is_digit_digitChar (Nat.digits_lt_base (by norm_num) hd)

theorem renderNat_ne_nil (n : Nat) : renderNat n ≠ [] := by
  unfold renderNat
  by_cases h0 : n = 0
  · rw [if_pos h0]; simp
  · rw [if_neg h0]
    simp only [ne_eq, List.reverse_eq_nil_iff, List.map_eq_nil_iff]
    exact Nat.digits_ne_nil_iff_ne_zero.2 h0

theorem foldr_digits (l : List Nat) (h : ∀ d ∈ l, d < 10) :
    List.foldr (fun d a => 10 * a + ((Nat.digitChar d).toNat - 48)) 0 l
      = Nat.ofDigits 10 l := by
  induction l with
  | nil => simp [Nat.ofDigits_nil]
  | cons d l ih =>
    rw [List.foldr_cons, ih (fun x hx => h x (List.mem_cons_of_mem d hx)),
      Nat.ofDigits_cons, digitChar_toNat (h d (List.mem_cons_self d l))]
    omega

theorem digitsToNat_renderNat (n : Nat) : digitsToNat (renderNat n) = n := by
  by_cases h0 : n = 0
  · subst h0; rfl
  · unfold renderNat digitsToNat
    rw [if_neg h0]
    rw [List.foldl_reverse, List.foldr_map]
    have hb : ∀ d ∈ Nat.digits 10 n, d < 10 :=
      fun d hd => Nat.digits_lt_base (by norm_num) hd
    calc List.foldr (fun x y => 10 * y + ((Nat.digitChar x).toNat - 48)) 0
          (Nat.digits 10 n)
        = Nat.ofDigits 10 (Nat.digits 10 n) := foldr_digits _ hb
      _ = n := Nat.ofDigits_digits 10 n

/-! ## Head-stop helpers and character-class facts -/

theorem head_stop_cons {p : Char → Bool} {c : Char} (t : List Char)
    (h : p c = false) : ∀ x, ((c :: t).head?) = some x → p x = false := by
  intro x hx
  simp only [List.head?_cons, Option.some.injEq] at hx
  rwa [← hx]

theorem head_stop_nil {p : Char → Bool} :
    ∀ x, (([] : List Char).head?) = some x → p x = false := by
  intro x hx
  simp at hx

theorem not_mem_of_class {p : Char → Bool} {x : Char} {l : List Char}
    (hall : ∀ c ∈ l, p c = true) (hx : p x = false) : x ∉ l := by
  intro hm
  rw [hall x hm] at hx
  exact absurd hx (by simp)

theorem domain_char_of_digit {c : Char} (h : is_digit c = true) :
    is_domain_char c = true := by
  simp [is_domain_char, is_alphanumeric, h]

theorem alnum_of_digit {c : Char} (h : is_digit c = true) :
    is_alphanumeric c = true := by
  simp [is_alphanumeric, h]

/-! ## Octet and port lemmas -/

theorem parse_octet_render {n : Nat} (h : n < 256) (t : List Char)
    (ht : ∀ c, t.head? = some c → is_digit c = false) :
    parse_octet (renderNat n ++ t) = some (t, n) := by
  have h1 : (renderNat n ++ t).takeWhile is_digit = renderNat n :=
    takeWhile_exact (renderNat_all_digit n) ht
  have h2 : (renderNat n ++ t).dropWhile is_digit = t :=
    dropWhile_exact (renderNat_all_digit n) ht
  have h3 : (renderNat n).isEmpty = false := by
    simp [List.isEmpty_iff, renderNat_ne_nil n]
  simp [parse_octet, h1, h2, h3, digitsToNat_renderNat, h]

theorem opt_port_none {t : List Char}
    (ht : ∀ c, t.head? = some c → c ≠ ':') : opt_port t = (t, none) := by
  cases t with
  | nil => rfl
  | cons c r => simp [opt_port, ht c rfl]

theorem opt_port_render {p : Option Nat} (hp : wf_port p = true)
    (t : List Char)
    (htd : ∀ c, t.head? = some c → is_digit c = false)
    (htc : ∀ c, t.head? = some c → c ≠ ':') :
    opt_port (renderPort p ++ t) = (t, p) := by
  cases p with
  | none =>
    simp only [renderPort, List.nil_append]
    exact opt_port_none htc
  | some n =>
    have hn : n < 65536 := by simpa [wf_port] using hp
    have h1 : (renderNat n ++ t).takeWhile is_digit = renderNat n :=
      takeWhile_exact (renderNat_all_digit n) htd
    have h2 : (renderNat n ++ t).dropWhile is_digit = t :=
      dropWhile_exact (renderNat_all_digit n) htd
    have h3 : (renderNat n).isEmpty = false := by
      simp [List.isEmpty_iff, renderNat_ne_nil n]
    simp [renderPort, opt_port, h1, h2, h3, digitsToNat_renderNat, hn]

/-! ## Host lemmas -/

theorem not_digit_of_not_domain {c : Char} (h : is_domain_char c = false) :
    is_digit c = false := by
  cases hd : is_digit c
  · rfl
  · rw [domain_char_of_digit hd] at h
    exact absurd h (by simp)

theorem parse_ipv4_fail_head {input : List Char}
    (h : ∀ c, input.head? = some c → is_digit c = false) :
    parse_ipv4_host input = none := by
  have h1 : input.takeWhile is_digit = [] := takeWhile_nil_of_head h
  simp [parse_ipv4_host, parse_octet, h1]

theorem parse_domain_host_render {l : List Char} {p : Option Nat}
    (hne : l ≠ []) (hall : ∀ c ∈ l, is_domain_char c = true)
    (hp : wf_port p = true) (t : List Char)
    (htd : ∀ c, t.head? = some c → is_domain_char c = false)
    (htc : ∀ c, t.head? = some c → c ≠ ':') :
    parse_domain_host (l ++ (renderPort p ++ t)) = some (t, Domain.name l p) := by
  have hstop : ∀ c, (renderPort p ++ t).head? = some c →
      is_domain_char c = false := by
    cases p with
    | none => simpa [renderPort] using htd
    | some n =>
      simp only [renderPort, List.cons_append]
      exact head_stop_cons _ (by decide)
  have h1 : (l ++ (renderPort p ++ t)).takeWhile is_domain_char = l :=
    takeWhile_exact hall hstop
  have h2 : (l ++ (renderPort p ++ t)).dropWhile is_domain_char
      = renderPort p ++ t :=
    dropWhile_exact hall hstop
  have h3 : l.isEmpty = false := by simp [List.isEmpty_iff, hne]
  have hport : opt_port (renderPort p ++ t) = (t, p) :=
    opt_port_render hp t (fun c hc => not_digit_of_not_domain (htd c hc)) htc
  simp [parse_domain_host, h1, h2, h3, hport]

theorem parse_ipv4_host_render {a b c d : Nat} {p : Option Nat}
    (ha : a < 256) (hb : b < 256) (hc : c < 256) (hd : d < 256)
    (hp : wf_port p = true) (t : List Char)
    (htd : ∀ x, t.head? = some x → is_digit x = false)
    (htc : ∀ x, t.head? = some x → x ≠ ':') :
    parse_ipv4_host (renderNat a ++ '.' :: (renderNat b ++ '.' :: (renderNat c
      ++ '.' :: (renderNat d ++ (renderPort p ++ t)))))
      = some (t, Domain.ipAddr a b c d p) := by
  have hstop : ∀ x, (renderPort p ++ t).head? = some x →
      is_digit x = false := by
    cases p with
    | none => simpa [renderPort] using htd
    | some n =>
      simp only [renderPort, List.cons_append]
      exact head_stop_cons _ (by decide)
  have ho1 := parse_octet_render ha
    ('.' :: (renderNat b ++ '.' :: (renderNat c ++ '.' :: (renderNat d
      ++ (renderPort p ++ t))))) (head_stop_cons _ (by decide))
  have ho2 := parse_octet_render hb
    ('.' :: (renderNat c ++ '.' :: (renderNat d ++ (renderPort p ++ t))))
    (head_stop_cons _ (by decide))
  have ho3 := parse_octet_render hc
    ('.' :: (renderNat d ++ (renderPort p ++ t))) (head_stop_cons _ (by decide))
  have ho4 := parse_octet_render hd (renderPort p ++ t) hstop
  have hport : opt_port (renderPort p ++ t) = (t, p) :=
    opt_port_render hp t htd htc
  simp [parse_ipv4_host, ho1, ho2, ho3, ho4, hport]

theorem parse_host_domain {l : List Char} {p : Option Nat}
    (hne : l ≠ []) (hall : ∀ c ∈ l, is_domain_char c = true)
    (hh : is_digit (l.headD 'x') = false)
    (hp : wf_port p = true) (t : List Char)
    (htd : ∀ c, t.head? = some c → is_domain_char c = false)
    (htc : ∀ c, t.head? = some c → c ≠ ':') :
    parse_host (l ++ (renderPort p ++ t)) = some (t, Domain.name l p) := by
  have hip : parse_ipv4_host (l ++ (renderPort p ++ t)) = none := by
    apply parse_ipv4_fail_head
    cases l with
    | nil => exact absurd rfl hne
    | cons c0 l' =>
      simp only [List.headD_cons] at hh
      exact head_stop_cons _ hh
  simp [parse_host, hip, parse_domain_host_render hne hall hp t htd htc]

theorem parse_host_ip {a b c d : Nat} {p : Option Nat}
    (ha : a < 256) (hb : b < 256) (hc : c < 256) (hd : d < 256)
    (hp : wf_port p = true) (t : List Char)
    (htd : ∀ x, t.head? = some x → is_digit x = false)
    (htc : ∀ x, t.head? = some x → x ≠ ':') :
    parse_host (renderNat a ++ '.' :: (renderNat b ++ '.' :: (renderNat c
      ++ '.' :: (renderNat d ++ (renderPort p ++ t)))))
      = some (t, Domain.ipAddr a b c d p) := by
  simp [parse_host, parse_ipv4_host_render ha hb hc hd hp t htd htc]

/-! ## Credentials lemmas -/

theorem parse_uri_auth_no_at {input : List Char} (h : '@' ∉ input) :
    parse_uri_auth input = none := by
  have hsub1 : ∀ x ∈ input.dropWhile is_alphanumeric, x ∈ input :=
    fun x hx => (List.dropWhile_suffix _).sublist.subset hx
  cases hd : input.dropWhile is_alphanumeric with
  | nil => simp [parse_uri_auth, hd]
  | cons c r =>
    have hcmem : c ∈ input := hsub1 c (hd ▸ List.mem_cons_self c r)
    have hc_at : c ≠ '@' := fun e => h (e ▸ hcmem)
    by_cases hc : c = ':'
    · subst hc
      cases hd2 : r.dropWhile is_alphanumeric with
      | nil => simp [parse_uri_auth, hd, hd2, hc_at]
      | cons c2 r2 =>
        have hc2mem : c2 ∈ input := by
          apply hsub1
          rw [hd]
          exact List.mem_cons_of_mem _
            ((List.dropWhile_suffix _).sublist.subset (hd2 ▸ List.mem_cons_self c2 r2))
        have hc2_at : c2 ≠ '@' := fun e => h (e ▸ hc2mem)
        simp [parse_uri_auth, hd, hd2, hc_at, hc2_at]
    · simp [parse_uri_auth, hd, hc_at, hc]

theorem opt_uri_auth_no_at {input : List Char} (h : '@' ∉ input) :
    opt_uri_auth input = (input, none) := by
  simp [opt_uri_auth, parse_uri_auth_no_at h]

theorem parse_uri_auth_render {a : UriAuth}
    (ha : wf_auth (some a) = true) (t : List Char) :
    parse_uri_auth (renderAuth (some a) ++ t) = some (t, a) := by
  obtain ⟨user, pw⟩ := a
  simp only [wf_auth, Bool.and_eq_true, List.all_eq_true] at ha
  cases pw with
  | none =>
    have h1 : (user ++ '@' :: t).takeWhile is_alphanumeric = user :=
      takeWhile_exact ha.1 (head_stop_cons _ (by decide))
    have h2 : (user ++ '@' :: t).dropWhile is_alphanumeric = '@' :: t :=
      dropWhile_exact ha.1 (head_stop_cons _ (by decide))
    simp [renderAuth, parse_uri_auth, h1, h2]
  | some pw =>
    have hpw : ∀ c ∈ pw, is_alphanumeric c = true := by
      simpa [List.all_eq_true] using ha.2
    have h1 : (user ++ ':' :: (pw ++ '@' :: t)).takeWhile is_alphanumeric
        = user := takeWhile_exact ha.1 (head_stop_cons _ (by decide))
    have h2 : (user ++ ':' :: (pw ++ '@' :: t)).dropWhile is_alphanumeric
        = ':' :: (pw ++ '@' :: t) :=
      dropWhile_exact ha.1 (head_stop_cons _ (by decide))
    have h3 : (pw ++ '@' :: t).takeWhile is_alphanumeric = pw :=
      takeWhile_exact hpw (head_stop_cons _ (by decide))
    have h4 : (pw ++ '@' :: t).dropWhile is_alphanumeric = '@' :: t :=
      dropWhile_exact hpw (head_stop_cons _ (by decide))
    simp [renderAuth, parse_uri_auth, h1, h2, h3, h4, List.append_assoc]

theorem opt_uri_auth_render {a : UriAuth}
    (ha : wf_auth (some a) = true) (t : List Char) :
    opt_uri_auth (renderAuth (some a) ++ t) = (t, some a) := by
  simp [opt_uri_auth, parse_uri_auth_render ha t]

/-! ## Scheme lemmas -/

theorem parse_tag_self (l t : List Char) : parse_tag l (l ++ t) = some t := by
  unfold parse_tag
  rw [isPrefixOf_append_self]
  simp [List.drop_left]

theorem parse_scheme_render (s : Scheme) (t : List Char) :
    parse_scheme (renderScheme s ++ t) = some (t, s) := by
  cases s with
  | sip =>
    have hf : parse_tag (("sips:").data) ((("sip:").data) ++ t) = none := by
      unfold parse_tag
      rw [show (("sips:").data).isPrefixOf ((("sip:").data) ++ t) = false from rfl]
      simp
    have hs : parse_tag (("sip:").data) ((("sip:").data) ++ t) = some t :=
      parse_tag_self _ t
    show parse_scheme ((("sip:").data) ++ t) = some (t, Scheme.sip)
    unfold parse_scheme
    rw [hf, hs]
  | sips =>
    have hs : parse_tag (("sips:").data) ((("sips:").data) ++ t) = some t :=
      parse_tag_self _ t
    show parse_scheme ((("sips:").data) ++ t) = some (t, Scheme.sips)
    unfold parse_scheme
    rw [hs]

/-! ## The rendered URI tail contains no `@` -/

theorem not_mem_append_chars {x : Char} {a b : List Char}
    (ha : x ∉ a) (hb : x ∉ b) : x ∉ a ++ b := by
  intro hm
  rcases List.mem_append.1 hm with h | h
  · exact ha h
  · exact hb h

theorem at_not_mem_renderNat (n : Nat) : '@' ∉ renderNat n :=
  not_mem_of_class (renderNat_all_digit n) (by decide)

theorem at_not_mem_renderPort (p : Option Nat) : '@' ∉ renderPort p := by
  cases p with
  | none => simp [renderPort]
  | some n =>
    simp only [renderPort, List.mem_cons]
    rintro (h | h)
    · exact absurd h (by decide)
    · exact at_not_mem_renderNat n h

theorem at_not_mem_renderDomain {h : Domain} (hw : wf_domain h = true) :
    '@' ∉ renderDomain h := by
  cases h with
  | name l p =>
    simp only [wf_domain, Bool.and_eq_true, List.all_eq_true] at hw
    obtain ⟨⟨⟨-, h2⟩, -⟩, -⟩ := hw
    exact not_mem_append_chars (not_mem_of_class h2 (by decide))
      (at_not_mem_renderPort p)
  | ipAddr a b c d p =>
    simp only [renderDomain]
    intro hm
    rcases List.mem_append.1 hm with hx | hx
    on_goal 2 => exact at_not_mem_renderPort p hx
    rcases List.mem_append.1 hx with hx | hx
    on_goal 2 =>
      rcases List.mem_cons.1 hx with h | h
      · exact absurd h (by decide)
      · exact at_not_mem_renderNat d h
    rcases List.mem_append.1 hx with hx | hx
    on_goal 2 =>
      rcases List.mem_cons.1 hx with h | h
      · exact absurd h (by decide)
      · exact at_not_mem_renderNat c h
    rcases List.mem_append.1 hx with hx | hx
    · exact at_not_mem_renderNat a hx
    · rcases List.mem_cons.1 hx with h | h
      · exact absurd h (by decide)
      · exact at_not_mem_renderNat b h

theorem at_not_mem_renderParam {p : Param} (hw : wf_param p = true) :
    '@' ∉ renderParam p := by
  cases p with
  | transport tr => cases tr <;> decide
  | other k v =>
    simp only [wf_param, Bool.and_eq_true, List.all_eq_true] at hw
    obtain ⟨⟨hk, hv⟩, -⟩ := hw
    simp only [renderParam]
    intro hm
    rcases List.mem_cons.1 hm with hx | hx
    · exact absurd hx (by decide)
    rcases List.mem_append.1 hx with hx2 | hx2
    · exact not_mem_of_class hk (by decide) hx2
    rcases List.mem_cons.1 hx2 with hx3 | hx3
    · exact absurd hx3 (by decide)
    · exact not_mem_of_class hv (by decide) hx3

theorem at_not_mem_renderParams {l : List Param}
    (hw : ∀ p ∈ l, wf_param p = true) : '@' ∉ renderParams l := by
  induction l with
  | nil => simp [renderParams]
  | cons p rest ih =>
    simp only [renderParams]
    exact not_mem_append_chars
      (at_not_mem_renderParam (hw p (List.mem_cons_self p rest)))
      (ih (fun q hq => hw q (List.mem_cons_of_mem p hq)))

theorem at_not_mem_renderKVs {l : List (List Char × List Char)}
    (hw : ∀ kv ∈ l, wf_kv kv = true) : '@' ∉ renderKVs l := by
  induction l with
  | nil => simp [renderKVs]
  | cons kv rest ih =>
    obtain ⟨k, v⟩ := kv
    have hw1 := hw (k, v) (List.mem_cons_self _ rest)
    simp only [wf_kv, Bool.and_eq_true, List.all_eq_true] at hw1
    obtain ⟨⟨hk, hv⟩, -⟩ := hw1
    simp only [renderKVs]
    intro hm
    rcases List.mem_append.1 hm with hx | hx
    · rcases List.mem_cons.1 hx with hx2 | hx2
      · exact absurd hx2 (by decide)
      rcases List.mem_append.1 hx2 with hx3 | hx3
      · exact not_mem_of_class hk (by decide) hx3
      rcases List.mem_cons.1 hx3 with hx4 | hx4
      · exact absurd hx4 (by decide)
      · exact not_mem_of_class hv (by decide) hx4
    · exact ih (fun q hq => hw q (List.mem_cons_of_mem _ hq)) hx

/-! ## Parameter parsing lemmas -/

theorem parse_named_field_param_none {t : List Char}
    (ht : ∀ c, t.head? = some c → c ≠ ';') :
    parse_named_field_param t = none := by
  cases t with
  | nil => rfl
  | cons c r => simp [parse_named_field_param, ht c rfl]

theorem parse_named_field_param_render {k v : List Char}
    (hk : ∀ c ∈ k, is_alphabetic c = true)
    (hv : ∀ c ∈ v, is_alphanumeric c = true) (t : List Char)
    (ht : ∀ c, t.head? = some c → is_alphanumeric c = false) :
    parse_named_field_param (';' :: (k ++ '=' :: (v ++ t)))
      = some (t, (k, v)) := by
  have h1 : (k ++ '=' :: (v ++ t)).takeWhile is_alphabetic = k :=
    takeWhile_exact hk (head_stop_cons _ (by decide))
  have h2 : (k ++ '=' :: (v ++ t)).dropWhile is_alphabetic = '=' :: (v ++ t) :=
    dropWhile_exact hk (head_stop_cons _ (by decide))
  have h3 : (v ++ t).takeWhile is_alphanumeric = v := takeWhile_exact hv ht
  have h4 : (v ++ t).dropWhile is_alphanumeric = t := dropWhile_exact hv ht
  simp [parse_named_field_param, h1, h2, h3, h4]

theorem parse_uri_param_none {t : List Char}
    (ht : ∀ c, t.head? = some c → c ≠ ';') : parse_uri_param t = none := by
  simp [parse_uri_param, parse_named_field_param_none ht]

theorem parse_uri_param_render_wf {p : Param} (hp : wf_param p = true)
    (t : List Char) (ht : ∀ c, t.head? = some c → is_alphanumeric c = false) :
    parse_uri_param (renderParam p ++ t) = some (t, p) := by
  cases p with
  | transport tr =>
    have hk : ∀ c ∈ ("transport").data, is_alphabetic c = true := by decide
    have hv : ∀ c ∈ renderTransp tr, is_alphanumeric c = true := by
      cases tr <;> decide
    have h := parse_named_field_param_render hk hv t ht
    have hpk : param_from_kv (("transport").data) (renderTransp tr)
        = Param.transport tr := by cases tr <;> rfl
    have hshape : renderParam (Param.transport tr) ++ t
        = ';' :: ((("transport").data) ++ '=' :: (renderTransp tr ++ t)) := by
      cases tr <;> rfl
    rw [hshape]
    unfold parse_uri_param
    rw [h]
    simp [hpk]
  | other k v =>
    simp only [wf_param, Bool.and_eq_true, List.all_eq_true] at hp
    obtain ⟨⟨hk, hv⟩, hstable⟩ := hp
    have hstable2 : param_from_kv k v = Param.other k v :=
      of_decide_eq_true hstable
    have h := parse_named_field_param_render hk hv t ht
    have hshape : renderParam (Param.other k v) ++ t
        = ';' :: (k ++ '=' :: (v ++ t)) := by
      simp [renderParam, List.cons_append, List.append_assoc]
    rw [hshape]
    unfold parse_uri_param
    rw [h]
    simp [hstable2]

/-! ## Fueled loop helpers -/

theorem uri_params_loop_stop {fuel : Nat} {acc} {input : List Char}
    (h : parse_uri_param input = none) (hf : 1 ≤ fuel) :
    uri_params_loop fuel acc input = (input, acc) := by
  obtain ⟨g, rfl⟩ : ∃ g, fuel = g + 1 := ⟨fuel - 1, by omega⟩
  simp [uri_params_loop, h]

theorem uri_params_loop_once {fuel : Nat} {acc} {input rest : List Char}
    {p : Param} (h1 : parse_uri_param input = some (rest, p))
    (h2 : parse_uri_param rest = none) (hf : 2 ≤ fuel) :
    uri_params_loop fuel acc input = (rest, insertParam acc p) := by
  obtain ⟨g, rfl⟩ : ∃ g, fuel = g + 2 := ⟨fuel - 2, by omega⟩
  simp [uri_params_loop, h1, h2]

theorem params_loop_stop_ge {fuel : Nat} {acc} {input : List Char}
    (h : parse_named_field_param input = none) (hf : 1 ≤ fuel) :
    params_loop fuel acc input = (input, acc) := by
  obtain ⟨g, rfl⟩ : ∃ g, fuel = g + 1 := ⟨fuel - 1, by omega⟩
  simp [params_loop, h]

theorem params_loop_once {fuel : Nat} {acc} {input rest : List Char}
    {kv : List Char × List Char}
    (h1 : parse_named_field_param input = some (rest, kv))
    (h2 : parse_named_field_param rest = none) (hf : 2 ≤ fuel) :
    params_loop fuel acc input = (rest, insertParamKV acc kv.1 kv.2) := by
  obtain ⟨g, rfl⟩ : ∃ g, fuel = g + 2 := ⟨fuel - 2, by omega⟩
  simp [params_loop, h1, h2]

/-! ## Master lemma: a well-formed rendered URI reparses exactly -/

theorem parse_uri_render_gen {u : Uri} (hu : wf_uri u = true)
    (hlen : u.parameters.length ≤ 1) (t : List Char)
    (ht : t = [] ∨ ∃ t2, t = '>' :: t2) (hat : '@' ∉ t) :
    parse_uri (renderUri u ++ t) = some (t, u) := by
  obtain ⟨sch, host, auth, ps⟩ := u
  simp only [wf_uri, Bool.and_eq_true, List.all_eq_true] at hu
  obtain ⟨⟨hdom, hauth⟩, hps⟩ := hu
  simp only at hdom hauth hps hlen
  have htHead : ∀ c, t.head? = some c →
      (is_domain_char c = false ∧ c ≠ ':' ∧ is_digit c = false
        ∧ is_alphanumeric c = false ∧ c ≠ ';') := by
    rcases ht with rfl | ⟨t2, rfl⟩
    · intro c hc; simp at hc
    · intro c hc
      simp only [List.head?_cons, Option.some.injEq] at hc
      subst hc
      exact ⟨by decide, by decide, by decide, by decide, by decide⟩
  have hTHead : ∀ c, (renderParams ps ++ t).head? = some c →
      (is_domain_char c = false ∧ c ≠ ':' ∧ is_digit c = false) := by
    cases ps with
    | nil =>
      simp only [renderParams, List.nil_append]
      intro c hc
      have h := htHead c hc
      exact ⟨h.1, h.2.1, h.2.2.1⟩
    | cons p rest =>
      intro c hc
      have hshape : ∃ tail, renderParams (p :: rest) ++ t = ';' :: tail := by
        cases p <;> exact ⟨_, rfl⟩
      obtain ⟨tail, he⟩ := hshape
      rw [he] at hc
      simp only [List.head?_cons, Option.some.injEq] at hc
      subst hc
      exact ⟨by decide, by decide, by decide⟩
  have hnorm : renderUri (Uri.mk sch host auth ps) ++ t
      = renderScheme sch
        ++ (renderAuth auth ++ (renderDomain host ++ (renderParams ps ++ t))) := by
    simp [renderUri, List.append_assoc]
  rw [hnorm]
  have hsch := parse_scheme_render sch
    (renderAuth auth ++ (renderDomain host ++ (renderParams ps ++ t)))
  have hauthstep : opt_uri_auth
      (renderAuth auth ++ (renderDomain host ++ (renderParams ps ++ t)))
      = (renderDomain host ++ (renderParams ps ++ t), auth) := by
    cases auth with
    | none =>
      simp only [renderAuth, List.nil_append]
      apply opt_uri_auth_no_at
      apply not_mem_append_chars (at_not_mem_renderDomain hdom)
      exact not_mem_append_chars (at_not_mem_renderParams hps) hat
    | some a => exact opt_uri_auth_render hauth _
  have hhost : parse_host (renderDomain host ++ (renderParams ps ++ t))
      = some (renderParams ps ++ t, host) := by
    cases host with
    | name l p =>
      simp only [wf_domain, Bool.and_eq_true, List.all_eq_true] at hdom
      obtain ⟨⟨⟨h1, h2⟩, h3⟩, h4⟩ := hdom
      have hne : l ≠ [] := by
        simpa [List.isEmpty_iff] using h1
      have hh3 : is_digit (l.headD 'x') = false := by simpa using h3
      rw [show renderDomain (Domain.name l p) ++ (renderParams ps ++ t)
          = l ++ (renderPort p ++ (renderParams ps ++ t)) from by
        simp [renderDomain, List.append_assoc]]
      exact parse_host_domain hne h2 hh3 h4 _
        (fun c hc => (hTHead c hc).1) (fun c hc => (hTHead c hc).2.1)
    | ipAddr a b c d p =>
      simp only [wf_domain, Bool.and_eq_true] at hdom
      obtain ⟨⟨⟨⟨ha1, hb1⟩, hc1⟩, hd1⟩, hp1⟩ := hdom
      rw [show renderDomain (Domain.ipAddr a b c d p) ++ (renderParams ps ++ t)
          = renderNat a ++ '.' :: (renderNat b ++ '.' :: (renderNat c
            ++ '.' :: (renderNat d ++ (renderPort p ++ (renderParams ps ++ t)))))
          from by simp [renderDomain, List.append_assoc, List.cons_append]]
      exact parse_host_ip (of_decide_eq_true ha1) (of_decide_eq_true hb1)
        (of_decide_eq_true hc1) (of_decide_eq_true hd1) hp1 _
        (fun x hx => (hTHead x hx).2.2) (fun x hx => (hTHead x hx).2.1)
  have hploop : uri_params_loop ((renderParams ps ++ t).length + 1) []
      (renderParams ps ++ t) = (t, ps) := by
    cases ps with
    | nil =>
      simp only [renderParams, List.nil_append]
      exact uri_params_loop_stop
        (parse_uri_param_none (fun c hc => (htHead c hc).2.2.2.2)) (by omega)
    | cons p rest =>
      have hrest : rest = [] := by
        simp only [List.length_cons] at hlen
        cases rest with
        | nil => rfl
        | cons q qs => simp at hlen
      subst hrest
      have hshape : renderParams [p] ++ t = renderParam p ++ t := by
        simp [renderParams]
      rw [hshape]
      have hwp : wf_param p = true := hps p (List.mem_cons_self p [])
      have hstep := parse_uri_param_render_wf hwp t
        (fun c hc => (htHead c hc).2.2.2.1)
      have hstop := parse_uri_param_none (fun c hc => (htHead c hc).2.2.2.2)
      have hlen2 : 2 ≤ (renderParam p ++ t).length + 1 := by
        have : 1 ≤ (renderParam p).length := by
          cases p <;> simp [renderParam]
        simp only [List.length_append]
        omega
      rw [uri_params_loop_once hstep hstop hlen2]
      simp [insertParam]
  simp only [parse_uri, hsch, hauthstep, hhost, hploop]

/-- A well-formed rendered URI with no parameters of its own, followed
by one rendered header-level parameter pair, reparses with the pair
absorbed into the URI's parameter collection as the opaque variant. -/
theorem parse_uri_render_absorb {u : Uri} (hu : wf_uri u = true)
    (hp0 : u.parameters = []) {k v : List Char}
    (hkv : wf_kv (k, v) = true) :
    parse_uri (renderUri u ++ (';' :: (k ++ '=' :: v)))
      = some ([], Uri.mk u.scheme u.host u.auth [Param.other k v]) := by
  obtain ⟨sch, host, auth, ps⟩ := u
  simp only at hp0
  subst hp0
  simp only [wf_uri, Bool.and_eq_true, List.all_eq_true] at hu
  obtain ⟨⟨hdom, hauth⟩, -⟩ := hu
  simp only [wf_kv, Bool.and_eq_true, List.all_eq_true] at hkv
  obtain ⟨⟨hk, hv⟩, hstable⟩ := hkv
  have hstable2 : param_from_kv k v = Param.other k v :=
    of_decide_eq_true hstable
  have hatt : '@' ∉ ';' :: (k ++ '=' :: v) := by
    intro hm
    rcases List.mem_cons.1 hm with hx | hx
    · exact absurd hx (by decide)
    rcases List.mem_append.1 hx with hx2 | hx2
    · exact not_mem_of_class hk (by decide) hx2
    rcases List.mem_cons.1 hx2 with hx3 | hx3
    · exact absurd hx3 (by decide)
    · exact not_mem_of_class hv (by decide) hx3
  have hTHead : ∀ c, (';' :: (k ++ '=' :: v)).head? = some c →
      (is_domain_char c = false ∧ c ≠ ':' ∧ is_digit c = false) := by
    intro c hc
    simp only [List.head?_cons, Option.some.injEq] at hc
    subst hc
    exact ⟨by decide, by decide, by decide⟩
  have hnorm : renderUri (Uri.mk sch host auth []) ++ (';' :: (k ++ '=' :: v))
      = renderScheme sch
        ++ (renderAuth auth ++ (renderDomain host ++ (';' :: (k ++ '=' :: v)))) := by
    simp [renderUri, renderParams, List.append_assoc]
  rw [hnorm]
  have hsch := parse_scheme_render sch
    (renderAuth auth ++ (renderDomain host ++ (';' :: (k ++ '=' :: v))))
  have hauthstep : opt_uri_auth
      (renderAuth auth ++ (renderDomain host ++ (';' :: (k ++ '=' :: v))))
      = (renderDomain host ++ (';' :: (k ++ '=' :: v)), auth) := by
    cases auth with
    | none =>
      simp only [renderAuth, List.nil_append]
      apply opt_uri_auth_no_at
      exact not_mem_append_chars (at_not_mem_renderDomain hdom) hatt
    | some a => exact opt_uri_auth_render hauth _
  have hhost : parse_host (renderDomain host ++ (';' :: (k ++ '=' :: v)))
      = some (';' :: (k ++ '=' :: v), host) := by
    cases host with
    | name l p =>
      simp only [wf_domain, Bool.and_eq_true, List.all_eq_true] at hdom
      obtain ⟨⟨⟨h1, h2⟩, h3⟩, h4⟩ := hdom
      have hne : l ≠ [] := by simpa [List.isEmpty_iff] using h1
      have hh3 : is_digit (l.headD 'x') = false := by simpa using h3
      rw [show renderDomain (Domain.name l p) ++ (';' :: (k ++ '=' :: v))
          = l ++ (renderPort p ++ (';' :: (k ++ '=' :: v))) from by
        simp [renderDomain, List.append_assoc]]
      exact parse_host_domain hne h2 hh3 h4 _
        (fun c hc => (hTHead c hc).1) (fun c hc => (hTHead c hc).2.1)
    | ipAddr a b c d p =>
      simp only [wf_domain, Bool.and_eq_true] at hdom
      obtain ⟨⟨⟨⟨ha1, hb1⟩, hc1⟩, hd1⟩, hp1⟩ := hdom
      rw [show renderDomain (Domain.ipAddr a b c d p) ++ (';' :: (k ++ '=' :: v))
          = renderNat a ++ '.' :: (renderNat b ++ '.' :: (renderNat c
            ++ '.' :: (renderNat d ++ (renderPort p ++ (';' :: (k ++ '=' :: v))))))
          from by simp [renderDomain, List.append_assoc, List.cons_append]]
      exact parse_host_ip (of_decide_eq_true ha1) (of_decide_eq_true hb1)
        (of_decide_eq_true hc1) (of_decide_eq_true hd1) hp1 _
        (fun x hx => (hTHead x hx).2.2) (fun x hx => (hTHead x hx).2.1)
  have hstep : parse_uri_param (';' :: (k ++ '=' :: v))
      = some ([], Param.other k v) := by
    have h := parse_named_field_param_render hk hv [] head_stop_nil
    rw [show (';' :: (k ++ '=' :: v)) = (';' :: (k ++ '=' :: (v ++ []))) from by
      simp]
    unfold parse_uri_param
    rw [h]
    simp [hstable2]
  have hploop : uri_params_loop ((';' :: (k ++ '=' :: v)).length + 1) []
      (';' :: (k ++ '=' :: v)) = ([], [Param.other k v]) := by
    rw [uri_params_loop_once hstep rfl (by simp)]
    simp [insertParam]
  simp only [parse_uri, hsch, hauthstep, hhost, hploop]

/-! ## Display-name lemmas -/

theorem parse_quoted_fail_head {input : List Char}
    (h : ∀ c, input.head? = some c → c ≠ '"') :
    parse_quoted_string input = none := by
  cases input with
  | nil => rfl
  | cons c r => simp [parse_quoted_string, h c rfl]

theorem parse_quoted_render {n rest : List Char} (hq : '"' ∉ n) :
    parse_quoted_string ('"' :: (n ++ '"' :: rest)) = some (rest, n) := by
  have hall : ∀ c ∈ n, (!decide (c = '"')) = true := by
    intro c hc
    simp only [Bool.not_eq_true', decide_eq_false_iff_not]
    exact fun e => hq (e ▸ hc)
  have h1 : (n ++ '"' :: rest).takeWhile (fun x => !decide (x = '"')) = n :=
    takeWhile_exact hall (head_stop_cons _ (by simp))
  have h2 : (n ++ '"' :: rest).dropWhile (fun x => !decide (x = '"'))
      = '"' :: rest :=
    dropWhile_exact hall (head_stop_cons _ (by simp))
  simp [parse_quoted_string, h1, h2]

theorem parse_unquoted_render {n rest : List Char}
    (hall : ∀ c ∈ n, is_alphabetic c = true) :
    parse_unquoted_string (n ++ ' ' :: rest) = some (rest, n) := by
  have h1 : (n ++ ' ' :: rest).takeWhile is_alphabetic = n :=
    takeWhile_exact hall (head_stop_cons _ (by decide))
  have h2 : (n ++ ' ' :: rest).dropWhile is_alphabetic = ' ' :: rest :=
    dropWhile_exact hall (head_stop_cons _ (by decide))
  simp [parse_unquoted_string, h1, h2]

theorem name_step_quoted {n rest : List Char} (hq : '"' ∉ n) :
    name_step ('"' :: (n ++ '"' :: rest)) = (rest, some n) := by
  simp [name_step, parse_name, parse_quoted_render hq, Option.orElse]

theorem name_step_unquoted {n rest : List Char} (hne : n ≠ [])
    (hall : ∀ c ∈ n, is_alphabetic c = true) :
    name_step (n ++ ' ' :: rest) = (rest, some n) := by
  have hqf : parse_quoted_string (n ++ ' ' :: rest) = none := by
    apply parse_quoted_fail_head
    cases n with
    | nil => exact absurd rfl hne
    | cons c0 n' =>
      intro x hx e
      subst e
      simp only [List.cons_append, List.head?_cons, Option.some.injEq] at hx
      have hc0 := hall c0 (List.mem_cons_self c0 n')
      rw [hx] at hc0
      exact absurd hc0 (by decide)
  simp [name_step, parse_name, hqf, parse_unquoted_render hall, Option.orElse]

/-! ## Header-parameter stage on rendered pairs -/

theorem parse_named_field_params_renderKVs
    {ps : List (List Char × List Char)}
    (hw : ∀ kv ∈ ps, wf_kv kv = true) (hlen : ps.length ≤ 1) :
    parse_named_field_params (renderKVs ps) = some ([], ps) := by
  cases ps with
  | nil => rfl
  | cons kv rest =>
    have hrest : rest = [] := by
      cases rest with
      | nil => rfl
      | cons q qs => simp at hlen
    subst hrest
    obtain ⟨k, v⟩ := kv
    have hw1 := hw (k, v) (List.mem_cons_self _ [])
    simp only [wf_kv, Bool.and_eq_true, List.all_eq_true] at hw1
    obtain ⟨⟨hk, hv⟩, -⟩ := hw1
    have hshape : renderKVs [(k, v)] = ';' :: (k ++ '=' :: (v ++ [])) := by
      simp [renderKVs]
    have hstep := parse_named_field_param_render hk hv [] head_stop_nil
    unfold parse_named_field_params
    rw [hshape]
    rw [params_loop_once hstep rfl (by simp)]
    simp [insertParamKV]

/-! ## The NamedHeader value parser on rendered input -/

theorem name_step_uri (u : Uri) (rest : List Char) :
    name_step (renderUri u ++ rest) = (renderUri u ++ rest, none)
    ∧ (renderUri u ++ rest).dropWhile is_space = renderUri u ++ rest
    ∧ strip_langle (renderUri u ++ rest) = renderUri u ++ rest := by
  obtain ⟨sch, host, auth, ps⟩ := u
  have hnorm : renderUri (Uri.mk sch host auth ps) ++ rest
      = renderScheme sch
        ++ (renderAuth auth ++ (renderDomain host ++ (renderParams ps ++ rest))) := by
    simp [renderUri, List.append_assoc]
  rw [hnorm]
  cases sch <;> exact ⟨rfl, rfl, rfl⟩

theorem pnfv_uri {u : Uri} (hu : wf_uri u = true)
    (hlen : u.parameters.length ≤ 1) (t : List Char)
    (ht : t = [] ∨ ∃ t2, t = '>' :: t2) (hat : '@' ∉ t) :
    parse_named_field_value (renderUri u ++ t)
      = some (strip_rangle t, (none, u)) := by
  obtain ⟨hns, hsp, hlt⟩ := name_step_uri u t
  have hA := parse_uri_render_gen hu hlen t ht hat
  simp only [parse_named_field_value, hns, hsp, hlt, hA]

theorem pnfv_uri_absorb {u : Uri} (hu : wf_uri u = true)
    (hp0 : u.parameters = []) {k v : List Char}
    (hkv : wf_kv (k, v) = true) :
    parse_named_field_value (renderUri u ++ (';' :: (k ++ '=' :: v)))
      = some ([], (none, Uri.mk u.scheme u.host u.auth [Param.other k v])) := by
  obtain ⟨hns, hsp, hlt⟩ := name_step_uri u (';' :: (k ++ '=' :: v))
  have hB := parse_uri_render_absorb hu hp0 hkv
  simp only [parse_named_field_value, hns, hsp, hlt, hB]
  rfl

/-! ## Master lemma: a well-formed rendered NamedHeader reparses to the
same rendered text -/

theorem parse_named_header_render {h : NamedHeader}
    (hw : wf_named_header h = true) :
    (parse_named_header (NamedHeader.render h)).map
      (fun pr => NamedHeader.render pr.2) = some (NamedHeader.render h) := by
  obtain ⟨dn, u, ps⟩ := h
  simp only [wf_named_header, Bool.and_eq_true, List.all_eq_true] at hw
  obtain ⟨⟨⟨hname, huri⟩, hkvs⟩, hlen⟩ := hw
  have hlen2 : u.parameters.length + ps.length ≤ 1 := of_decide_eq_true hlen
  have hulen : u.parameters.length ≤ 1 := by omega
  have hpslen : ps.length ≤ 1 := by omega
  have hatkvs : '@' ∉ renderKVs ps := at_not_mem_renderKVs hkvs
  cases dn with
  | none =>
    have hrender : NamedHeader.render (NamedHeader.mk none u ps)
        = renderUri u ++ renderKVs ps := by
      simp [NamedHeader.render]
    rw [hrender]
    cases ps with
    | nil =>
      have hv : parse_named_field_value (renderUri u ++ renderKVs [])
          = some ([], (none, u)) :=
        pnfv_uri huri hulen _ (Or.inl rfl) hatkvs
      have hparams : parse_named_field_params ([] : List Char)
          = some ([], ([] : List (List Char × List Char))) := rfl
      simp only [parse_named_header, hv, hparams, Option.map_some]
      simp [hrender]
    | cons kv rest =>
      have hrest : rest = [] := by
        cases rest with
        | nil => rfl
        | cons q qs =>
          exact absurd hlen2 (by simp only [List.length_cons]; omega)
      subst hrest
      have hp0 : u.parameters = [] := by
        simp only [List.length_cons, List.length_nil] at hlen2
        exact List.length_eq_zero.1 (by omega)
      obtain ⟨k, v⟩ := kv
      have hkv1 : wf_kv (k, v) = true := hkvs (k, v) (List.mem_cons_self _ [])
      have hshape : renderUri u ++ renderKVs [(k, v)]
          = renderUri u ++ (';' :: (k ++ '=' :: v)) := by
        simp [renderKVs]
      rw [hshape]
      have hv2 : parse_named_field_value (renderUri u ++ (';' :: (k ++ '=' :: v)))
          = some ([], (none, Uri.mk u.scheme u.host u.auth [Param.other k v])) :=
        pnfv_uri_absorb huri hp0 hkv1
      have hparams : parse_named_field_params ([] : List Char)
          = some ([], ([] : List (List Char × List Char))) := rfl
      simp only [parse_named_header, hv2, hparams, Option.map_some]
      simp [NamedHeader.render, renderUri, renderParams, renderParam,
        renderKVs, hp0, List.append_assoc]
  | some n =>
    rcases Bool.eq_false_or_eq_true (n.contains ' ') with hcsp | hcsp
    · -- quoted form (the name contains a space)
      have hmem : ' ' ∈ n := List.mem_of_elem_eq_true hcsp
      have hq : '"' ∉ n := by
        simp [wf_name, hmem] at hname
        exact hname
      have hrender : NamedHeader.render (NamedHeader.mk (some n) u ps)
          = '"' :: (n ++ '"' :: ' ' :: '<' :: (renderUri u ++ '>' :: renderKVs ps)) := by
        simp [NamedHeader.render, hmem, List.append_assoc]
      rw [hrender]
      have hns : name_step
          ('"' :: (n ++ '"' :: ' ' :: '<' :: (renderUri u ++ '>' :: renderKVs ps)))
          = (' ' :: '<' :: (renderUri u ++ '>' :: renderKVs ps), some n) :=
        name_step_quoted hq
      have hsp : (' ' :: '<' :: (renderUri u ++ '>' :: renderKVs ps)).dropWhile
          is_space = '<' :: (renderUri u ++ '>' :: renderKVs ps) := rfl
      have hlt : strip_langle ('<' :: (renderUri u ++ '>' :: renderKVs ps))
          = renderUri u ++ '>' :: renderKVs ps := rfl
      have hA := parse_uri_render_gen huri hulen ('>' :: renderKVs ps)
        (Or.inr ⟨_, rfl⟩) (by
          intro hm
          rcases List.mem_cons.1 hm with hx | hx
          · exact absurd hx (by decide)
          · exact hatkvs hx)
      have hsr : strip_rangle ('>' :: renderKVs ps) = renderKVs ps := rfl
      have hv2 : parse_named_field_value
          ('"' :: (n ++ '"' :: ' ' :: '<' :: (renderUri u ++ '>' :: renderKVs ps)))
          = some (renderKVs ps, (some n, u)) := by
        simp only [parse_named_field_value, hns, hsp, hlt, hA, hsr]
      simp only [parse_named_header, hv2,
        parse_named_field_params_renderKVs hkvs hpslen, Option.map_some]
      simp [hrender]
    · rcases Bool.eq_false_or_eq_true n.isEmpty with hemp | hemp
      · -- empty name, rendered as a bare pair of quotes
        have hn0 : n = [] := List.isEmpty_iff.1 hemp
        subst hn0
        have hrender : NamedHeader.render (NamedHeader.mk (some []) u ps)
            = '"' :: '"' :: ' ' :: '<' :: (renderUri u ++ '>' :: renderKVs ps) := by
          simp [NamedHeader.render, List.append_assoc]
        rw [hrender]
        have hns : name_step
            ('"' :: '"' :: ' ' :: '<' :: (renderUri u ++ '>' :: renderKVs ps))
            = (' ' :: '<' :: (renderUri u ++ '>' :: renderKVs ps), some []) :=
          name_step_quoted (List.not_mem_nil '"')
        have hsp : (' ' :: '<' :: (renderUri u ++ '>' :: renderKVs ps)).dropWhile
            is_space = '<' :: (renderUri u ++ '>' :: renderKVs ps) := rfl
        have hlt : strip_langle ('<' :: (renderUri u ++ '>' :: renderKVs ps))
            = renderUri u ++ '>' :: renderKVs ps := rfl
        have hA := parse_uri_render_gen huri hulen ('>' :: renderKVs ps)
          (Or.inr ⟨_, rfl⟩) (by
            intro hm
            rcases List.mem_cons.1 hm with hx | hx
            · exact absurd hx (by decide)
            · exact hatkvs hx)
        have hsr : strip_rangle ('>' :: renderKVs ps) = renderKVs ps := rfl
        have hv2 : parse_named_field_value
            ('"' :: '"' :: ' ' :: '<' :: (renderUri u ++ '>' :: renderKVs ps))
            = some (renderKVs ps, (some [], u)) := by
          simp only [parse_named_field_value, hns, hsp, hlt, hA, hsr]
        simp only [parse_named_header, hv2,
          parse_named_field_params_renderKVs hkvs hpslen, Option.map_some]
        simp [hrender]
      · -- nonempty space-free name, rendered unquoted
        have hnomem : ' ' ∉ n := by simpa using hcsp
        have hne : n ≠ [] := by
          intro e
          rw [e] at hemp
          simp at hemp
        have hall : ∀ c ∈ n, is_alphabetic c = true := by
          simp [wf_name, hnomem, hne, List.all_eq_true] at hname
          exact hname
        have hrender : NamedHeader.render (NamedHeader.mk (some n) u ps)
            = n ++ ' ' :: '<' :: (renderUri u ++ '>' :: renderKVs ps) := by
          simp [NamedHeader.render, hnomem, hne, List.append_assoc]
        rw [hrender]
        have hns : name_step (n ++ ' ' :: '<' :: (renderUri u ++ '>' :: renderKVs ps))
            = ('<' :: (renderUri u ++ '>' :: renderKVs ps), some n) :=
          name_step_unquoted hne hall
        have hsp : ('<' :: (renderUri u ++ '>' :: renderKVs ps)).dropWhile
            is_space = '<' :: (renderUri u ++ '>' :: renderKVs ps) := rfl
        have hlt : strip_langle ('<' :: (renderUri u ++ '>' :: renderKVs ps))
            = renderUri u ++ '>' :: renderKVs ps := rfl
        have hA := parse_uri_render_gen huri hulen ('>' :: renderKVs ps)
          (Or.inr ⟨_, rfl⟩) (by
            intro hm
            rcases List.mem_cons.1 hm with hx | hx
            · exact absurd hx (by decide)
            · exact hatkvs hx)
        have hsr : strip_rangle ('>' :: renderKVs ps) = renderKVs ps := rfl
        have hv2 : parse_named_field_value
            (n ++ ' ' :: '<' :: (renderUri u ++ '>' :: renderKVs ps))
            = some (renderKVs ps, (some n, u)) := by
          simp only [parse_named_field_value, hns, hsp, hlt, hA, hsr]
        simp only [parse_named_header, hv2,
          parse_named_field_params_renderKVs hkvs hpslen, Option.map_some]
        simp [hrender]

/-- C3 (amended): for any Uri or NamedHeader whose components are drawn
from the grammar's character classes (well-formed, with canonical
parameter pairs) and whose parameter collections hold at most one entry
in total, rendering, parsing the rendered text and rendering again
yields the same text. -/
theorem claim_C3 (u : Uri) (h : NamedHeader) :
    (wf_uri u = true → u.parameters.length ≤ 1 →
      (parse_uri (renderUri u)).map (fun pr => renderUri pr.2)
        = some (renderUri u))
    ∧ (wf_named_header h = true →
      (parse_named_header (NamedHeader.render h)).map
        (fun pr => NamedHeader.render pr.2) = some (NamedHeader.render h)) := by
  constructor
  · intro hu hlen
    have hA := parse_uri_render_gen hu hlen [] (Or.inl rfl) (List.not_mem_nil _)
    rw [List.append_nil] at hA
    simp [hA]
  · exact parse_named_header_render

/-- C3 counterexample: the claim as stated fails on the code — the
NamedHeader with the space-free, non-alphabetic display name `A.` and
no parameters renders as `A. <sip:hostname>`, whose reparse fails
entirely (the display-name grammar rejects `A.`, and the URI parser
then faces `A. <…`), so render-parse-render cannot reproduce the
text. -/
theorem claim_C3_cex :
    (NamedHeader.mk (some (("A.").data))
        (Uri.mk Scheme.sip (Domain.name (("hostname").data) none) none [])
        []).uri.parameters.length
      + (NamedHeader.mk (some (("A.").data))
        (Uri.mk Scheme.sip (Domain.name (("hostname").data) none) none [])
        []).params.length ≤ 1
    ∧ (parse_named_header ((NamedHeader.mk (some (("A.").data))
        (Uri.mk Scheme.sip (Domain.name (("hostname").data) none) none [])
        []).render)).map (fun pr => NamedHeader.render pr.2) = none :=
  ⟨by decide, rfl⟩

/-- C3 witness: the amended theorem applied to a concrete URI with one
transport parameter and to a concrete NamedHeader with a quoted display
name and one header parameter. -/
theorem claim_C3_wit :
    wf_uri (Uri.mk Scheme.sip (Domain.name (("hostname").data) none) none
        [Param.transport Transp.udp]) = true
    ∧ (Uri.mk Scheme.sip (Domain.name (("hostname").data) none) none
        [Param.transport Transp.udp]).parameters.length ≤ 1
    ∧ (parse_uri (renderUri (Uri.mk Scheme.sip
          (Domain.name (("hostname").data) none) none
          [Param.transport Transp.udp]))).map (fun pr => renderUri pr.2)
        = some (renderUri (Uri.mk Scheme.sip
            (Domain.name (("hostname").data) none) none
            [Param.transport Transp.udp]))
    ∧ wf_named_header (NamedHeader.mk (some (("A. Bell").data))
        (Uri.mk Scheme.sip (Domain.name (("h").data) none) none [])
        [(("tag").data, ("abc").data)]) = true
    ∧ (parse_named_header ((NamedHeader.mk (some (("A. Bell").data))
        (Uri.mk Scheme.sip (Domain.name (("h").data) none) none [])
        [(("tag").data, ("abc").data)]).render)).map
          (fun pr => NamedHeader.render pr.2)
        = some ((NamedHeader.mk (some (("A. Bell").data))
            (Uri.mk Scheme.sip (Domain.name (("h").data) none) none [])
            [(("tag").data, ("abc").data)]).render) :=
  ⟨by decide, by decide,
   (claim_C3 _ (NamedHeader.mk none
     (Uri.mk Scheme.sip (Domain.name (("h").data) none) none []) [])).1
     (by decide) (by decide),
   by decide,
   (claim_C3 (Uri.mk Scheme.sip (Domain.name (("h").data) none) none []) _).2
     (by decide)⟩
